import Mathlib

/-!
# Shallow embedding of `__dist__.py` (bayesian-simplex-clustering)

This file embeds the three conjugate-distribution classes of
`src/__dist__.py` — `dirich`, `gaussgamma`, `gausswish` — and proves the
frozen claims about them.

Modelling conventions:
* Floating-point numbers are modelled by `ℚ` (exact arithmetic).  `NaN` is
  not representable, so `np.isnan` checks are modelled as always-false;
  positive infinity (a legitimate parameter value for `alpha`, `omega`,
  `eta`, and `nu`) is modelled by the extended type `XQ`.
* Vectors are `ℕ → ℚ` together with an explicit dimension; matrices are
  `ℕ → ℕ → ℚ`.  Only indices below the stated dimension are meaningful,
  and every theorem quantifies indices accordingly.
* `numpy` reductions (`sum`, `dot`, …) become `Finset.range` sums; the
  accumulation loops of `stat` become sums over the evidence list.
* Transcendental library routines (`math.log`, `np.log1p`, `math.sqrt`,
  `scipy.special.psi`, `scipy.special.gammaln`) and the numerical
  linear-algebra routines (`numpy.linalg.cholesky`, `numpy.linalg.eigvals`)
  are modelled as uninterpreted function parameters; the few analytic facts
  a claim needs about them (e.g. `log 1 = 0`, or that a Cholesky factor is
  lower triangular with a nonzero diagonal) appear as explicit, satisfiable
  hypotheses.
* `numpy.linalg.solve` is only ever called on lower-triangular matrices in
  this code (Cholesky / Bartlett factors), so it is modelled by exact
  forward substitution (`solveF`).
* Python functions that can raise are modelled with `Option`/`Except`;
  an `AssertionError` from a failed `assert` becomes `none`, and the
  `NameError` raised by the unbound identifier `numdim` in both `loglik`
  implementations becomes `.error ()`.
-/

/-- A float value that is either an ordinary (finite) number or `+∞`.
Models the values admitted for `alpha`, `omega`, `eta` and `nu` in
`__dist__.py` (`np.isfinite` / `np.isinf` branches). -/
inductive XQ where
  | fin (q : ℚ)
  | inf
deriving DecidableEq, Repr

/-- `np.isnan(x) == False and x > 0.0` for an `XQ` value (`+∞ > 0` holds in
numpy). -/
def XQ.pos : XQ → Bool
  | .fin q => decide (0 < q)
  | .inf => true

/-- `np.isnan(x) == False and x > c` for an `XQ` value. -/
def XQ.gt (x : XQ) (c : ℚ) : Bool :=
  match x with
  | .fin q => decide (c < q)
  | .inf => true

/-- Forward substitution: the solution `x i` of `L x = b` for a lower
triangular matrix `L`, i.e. the exact content of `numpy.linalg.solve`
on the (lower-triangular) factors this code passes to it. -/
def solveF (L : ℕ → ℕ → ℚ) (b : ℕ → ℚ) (i : ℕ) : ℚ :=
  (b i - ∑ j ∈ (Finset.range i).attach, L i j.1 * solveF L b j.1) / L i i
decreasing_by exact Finset.mem_range.mp j.2

/-! ## `dirich` : the Dirichlet (categorical-simplex) component -/

/-- Parameter record stored by a `dirich` instance (`dirich.param` plus the
immutable `__dim__`).  `pi` is meaningful on indices `< dim`. -/
structure DirichState where
  dim : ℕ
  pi : ℕ → ℚ
  alpha : XQ

/-- Sufficient-statistics record returned by `dirich.stat` (the
accumulators are always finite). -/
structure DirichStat where
  pi : ℕ → ℚ
  alpha : ℚ

/-- `np.spacing(1.0)`, the tolerance used by the `pi` setter. -/
def spacingOne : ℚ := 1 / 2 ^ 52

/-- The assertion of the `dirich.pi` setter:
`np.size(pi) == dim`, `np.all(pi >= 0)` and `abs(np.sum(pi) - 1) < np.spacing(1)`. -/
def dirich_pi_ok (dim : ℕ) (pi : List ℚ) : Bool :=
  pi.length == dim && pi.all (fun x => decide (0 ≤ x)) && decide (|pi.sum - 1| < spacingOne)

/-- The `dirich.pi` property setter: `none` models the `AssertionError`. -/
def dirich_set_pi (s : DirichState) (pi : List ℚ) : Option DirichState :=
  if dirich_pi_ok s.dim pi then some { s with pi := fun i => pi.getD i 0 } else none

/-- The `dirich.alpha` property setter (`assert not isnan(alpha) and alpha > 0`). -/
def dirich_set_alpha (s : DirichState) (alpha : XQ) : Option DirichState :=
  if alpha.pos then some { s with alpha := alpha } else none

/-- `dirich.__init__`: checks only `dim > 0`, fills in defaults, then stores
the parameters *directly on the `param` container* (`self.__param__.pi = pi`),
bypassing the validating property setters. -/
def dirich_init (dim : ℕ) (pi : Option (List ℚ)) (alpha : Option XQ) : Option DirichState :=
  if 0 < dim then
    some { dim := dim
           pi := match pi with
                 | none => fun _ => 1 / dim     -- np.repeat(1.0/dim, dim)
                 | some v => fun i => v.getD i 0
           alpha := alpha.getD (.fin 1) }
  else none

/-- One evidence item for `dirich.stat`: a `dim × size` responsibility
matrix. -/
structure DBatch where
  size : ℕ
  prob : ℕ → ℕ → ℚ

/-- `dirich.stat`: accumulates row sums (`count`) into `stat.pi` and the
total weight (`count.sum()`) into `stat.alpha`, over all evidence items. -/
def dirich_stat (dim : ℕ) (ev : List DBatch) : DirichStat :=
  { pi := fun i => (ev.map (fun b => ∑ k ∈ Finset.range b.size, b.prob i k)).sum
    alpha := (ev.map (fun b =>
      ∑ i ∈ Finset.range dim, ∑ k ∈ Finset.range b.size, b.prob i k)).sum }

/-- `dirich.update`.  The second component models the returned value:
`true` for `return self`, `false` for the bare `return` (Python `None`)
taken when `alpha` is infinite (in which case the parameters are untouched). -/
def dirich_update (s : DirichState) (st : DirichStat) : DirichState × Bool :=
  match s.alpha with
  | .inf => (s, false)
  | .fin a =>
      ({ dim := s.dim
         pi := fun i => (a * s.pi i + st.pi i) / (a + st.alpha)
         alpha := .fin (a + st.alpha) }, true)

/-- `dirich.div` (KL divergence posterior→prior), with `gammaln` (`gl`) and
`psi` (`ps`) as uninterpreted parameters.  `XQ.inf` models the returned
`np.inf`. -/
def dirich_div (gl ps : ℚ → ℚ) (post prior : DirichState) : XQ :=
  let n := post.dim
  match post.alpha, prior.alpha with
  | .fin a, .fin a2 =>
      -- np.logical_xor(post.pi > 0, prior.pi > 0).any()
      if ∃ i < n, ((0 < post.pi i) ∧ ¬ (0 < prior.pi i)) ∨ ((¬ (0 < post.pi i)) ∧ 0 < prior.pi i)
      then .inf
      else
        let supp := (Finset.range n).filter (fun i => 0 < post.pi i)
        .fin (gl a - gl a2
          - (∑ i ∈ supp, (gl (a * post.pi i) - gl (a2 * prior.pi i)))
          + (∑ i ∈ supp, (a * post.pi i - a2 * prior.pi i) * (ps (a * post.pi i) - ps a)))
  | .inf, .inf =>
      if ∀ i < n, post.pi i = prior.pi i then .fin 0 else .inf
  | _, _ => .inf

/-! ## `gaussgamma` : the diagonal Gaussian-precision component -/

/-- Parameter record stored by a `gaussgamma` instance. -/
structure GGState where
  dim : ℕ
  mu : ℕ → ℚ
  omega : XQ
  sigma : ℕ → ℚ
  eta : XQ

/-- Sufficient-statistics record produced by `gaussgamma.stat`. -/
structure GGStat where
  mu : ℕ → ℚ
  omega : ℚ
  sigma : ℕ → ℚ
  eta : ℚ

/-- The `gaussgamma.mu` setter assertion: `np.size(mu) == dim` plus
finiteness (automatic for `ℚ` entries). -/
def gg_mu_ok (dim : ℕ) (mu : List ℚ) : Bool := mu.length == dim

/-- The `gaussgamma.sigma` setter assertion: size `dim`, finite entries,
and `np.all(sigma > 0)`. -/
def gg_sigma_ok (dim : ℕ) (sigma : List ℚ) : Bool :=
  sigma.length == dim && sigma.all (fun x => decide (0 < x))

/-- The `gaussgamma.mu` property setter. -/
def gg_set_mu (s : GGState) (mu : List ℚ) : Option GGState :=
  if gg_mu_ok s.dim mu then some { s with mu := fun i => mu.getD i 0 } else none

/-- The `gaussgamma.omega` property setter. -/
def gg_set_omega (s : GGState) (omega : XQ) : Option GGState :=
  if omega.pos then some { s with omega := omega } else none

/-- The `gaussgamma.sigma` property setter. -/
def gg_set_sigma (s : GGState) (sigma : List ℚ) : Option GGState :=
  if gg_sigma_ok s.dim sigma then some { s with sigma := fun i => sigma.getD i 0 } else none

/-- The `gaussgamma.eta` property setter. -/
def gg_set_eta (s : GGState) (eta : XQ) : Option GGState :=
  if eta.pos then some { s with eta := eta } else none

/-- `gaussgamma.__init__`: checks only `dim > 0`; defaults
`mu=0, omega=1, sigma=1, eta=1`; stores directly on the `param` container,
bypassing the property setters. -/
def gg_init (dim : ℕ) (mu : Option (List ℚ)) (omega : Option XQ)
    (sigma : Option (List ℚ)) (eta : Option XQ) : Option GGState :=
  if 0 < dim then
    some { dim := dim
           mu := match mu with
                 | none => fun _ => 0
                 | some v => fun i => v.getD i 0
           omega := omega.getD (.fin 1)
           sigma := match sigma with
                    | none => fun _ => 1
                    | some v => fun i => v.getD i 0
           eta := eta.getD (.fin 1) }
  else none

/-- `gaussgamma.rand`, as a function of the primitive draws: `g i` is the
`random.gamma(eta/2)` variate of axis `i`, `z i` the standard-normal
variate, and `sq` models `math.sqrt`/`np.sqrt`.  Returns `(loc, disp)`. -/
def gg_rand (sq : ℚ → ℚ) (s : GGState) (g z : ℕ → ℚ) : (ℕ → ℚ) × (ℕ → ℚ) :=
  let disp : ℕ → ℚ :=
    match s.eta with
    | .fin e => fun i => s.sigma i / (g i / (e / 2))
    | .inf => s.sigma
  let loc : ℕ → ℚ :=
    match s.omega with
    | .fin w => fun i => s.mu i + (sq (disp i) * z i) / sq w
    | .inf => s.mu
  (loc, disp)

/-- `gaussgamma.update`.  The `Bool` component models the returned value
(`gaussgamma.update` reaches `return self` on every path, including the
degenerate one). -/
def gg_update (s : GGState) (st : GGStat) : GGState × Bool :=
  match s.omega, s.eta with
  | .inf, .inf => (s, true)
  | om, et =>
      -- `diff = mu - stat.mu/stat.omega` if `stat.omega > 0` else `mu`
      -- (scalar condition, hence pointwise)
      let diff : ℕ → ℚ :=
        fun i => if 0 < st.omega then s.mu i - st.mu i / st.omega else s.mu i
      -- (weight, updated mu, updated omega)
      let wmo : ℚ × (ℕ → ℚ) × XQ :=
        match om with
        | .fin w => ((w * st.omega) / (w + st.omega),
                     fun i => (w * s.mu i + st.mu i) / (w + st.omega),
                     .fin (w + st.omega))
        | .inf => (st.omega, s.mu, .inf)
      -- (updated sigma, updated eta)
      let se : (ℕ → ℚ) × XQ :=
        match et with
        | .fin e => (fun i => (e * s.sigma i + st.sigma i + wmo.1 * (diff i) ^ 2) / (e + st.eta),
                     .fin (e + st.eta))
        | .inf => (s.sigma, .inf)
      ({ dim := s.dim, mu := wmo.2.1, omega := wmo.2.2, sigma := se.1, eta := se.2 }, true)

/-- One evidence item for the Gaussian `stat` routines: a `dim × size`
observation batch `obs` (observations are the columns) together with its
per-observation responsibility `weight` and `scale` vectors (the modes that
do not receive a component simply never read it). -/
structure GBatch where
  size : ℕ
  obs : ℕ → ℕ → ℚ
  weight : ℕ → ℚ
  scale : ℕ → ℚ

/-- `gaussgamma.stat`: the four accumulation loops selected by
`(weighted, scaled)`, followed by the reference-mean compensation
(`ref -= stat.mu/stat.omega` when `stat.omega > 0`, then
`stat.sigma -= stat.omega * |ref|**2`). -/
def gg_stat (weighted scaled : Bool) (s : GGState) (ev : List GBatch) : GGStat :=
  let ref := s.mu
  let acc : GGStat :=
    match weighted, scaled with
    | false, false =>
        { mu := fun i => (ev.map (fun b => ∑ k ∈ Finset.range b.size, b.obs i k)).sum
          omega := (ev.map (fun b => (b.size : ℚ))).sum
          sigma := fun i =>
            (ev.map (fun b => ∑ k ∈ Finset.range b.size, (b.obs i k - ref i) ^ 2)).sum
          eta := (ev.map (fun b => (b.size : ℚ))).sum }
    | false, true =>
        { mu := fun i => (ev.map (fun b => ∑ k ∈ Finset.range b.size, b.obs i k * b.scale k)).sum
          omega := (ev.map (fun b => ∑ k ∈ Finset.range b.size, b.scale k)).sum
          sigma := fun i =>
            (ev.map (fun b => ∑ k ∈ Finset.range b.size, (b.obs i k - ref i) ^ 2 * b.scale k)).sum
          eta := (ev.map (fun b => ∑ k ∈ Finset.range b.size, b.scale k)).sum }
    | true, true =>
        { mu := fun i => (ev.map (fun b =>
            ∑ k ∈ Finset.range b.size, b.obs i k * (b.weight k * b.scale k))).sum
          omega := (ev.map (fun b => ∑ k ∈ Finset.range b.size, b.weight k * b.scale k)).sum
          sigma := fun i => (ev.map (fun b =>
            ∑ k ∈ Finset.range b.size, (b.obs i k - ref i) ^ 2 * (b.weight k * b.scale k))).sum
          eta := (ev.map (fun b => ∑ k ∈ Finset.range b.size, b.scale k)).sum }
    | true, false =>
        { mu := fun i => (ev.map (fun b =>
            ∑ k ∈ Finset.range b.size, b.obs i k * b.weight k)).sum
          omega := (ev.map (fun b => ∑ k ∈ Finset.range b.size, b.weight k)).sum
          sigma := fun i => (ev.map (fun b =>
            ∑ k ∈ Finset.range b.size, (b.obs i k - ref i) ^ 2 * b.weight k)).sum
          eta := (ev.map (fun b => (b.size : ℚ))).sum }
  -- `if stat.omega > 0: ref -= stat.mu/stat.omega` (the condition is scalar,
  -- so the vector update is pointwise)
  let refAdj : ℕ → ℚ :=
    fun i => if 0 < acc.omega then ref i - acc.mu i / acc.omega else ref i
  { acc with sigma := fun i => acc.sigma i - acc.omega * (refAdj i) ^ 2 }

/-- `gaussgamma.div`, with `log` (`lg`), `psi` (`ps`) and `gammaln` (`gl`)
uninterpreted. -/
def gg_div (lg ps gl : ℚ → ℚ) (post prior : GGState) : XQ :=
  let nn := post.dim
  let n : ℚ := nn
  -- divergence contribution of the marginal Gamma part, given the
  -- conditional-Gauss contribution `d1`
  let etaPart : ℚ → XQ := fun d1 =>
    match post.eta, prior.eta with
    | .fin e, .fin e2 =>
        let det := ∑ i ∈ Finset.range nn, lg (post.sigma i)
        let det2 := ∑ i ∈ Finset.range nn, lg (prior.sigma i)
        let aux := lg (e / 2) - ps (e / 2)
        .fin (d1 - (e / 2) * n
          + (e2 / 2) * (∑ i ∈ Finset.range nn, prior.sigma i / post.sigma i)
          + ((e2 - e) / 2) * (det + n * aux)
          - (e2 / 2) * det2 + (e / 2) * det
          + n * gl (e2 / 2) - n * gl (e / 2)
          - n * (e2 / 2) * lg (e2 / 2) + n * (e / 2) * lg (e / 2))
    | .inf, .inf =>
        if ∀ i < nn, post.sigma i = prior.sigma i then .fin d1 else .inf
    | _, _ => .inf
  match post.omega, prior.omega with
  | .fin w, .fin w2 =>
      etaPart ((n / 2) * (w2 / w - lg (w2 / w) - 1)
        + (w2 / 2) * (∑ i ∈ Finset.range nn, (post.mu i - prior.mu i) ^ 2 / post.sigma i))
  | .inf, .inf =>
      if ∀ i < nn, post.mu i = prior.mu i then etaPart 0 else .inf
  | _, _ => .inf

/-- `gaussgamma.loglik`.  `lg`, `ps`, `gl`, `l1p` model `math.log`,
`special.psi`, `special.gammaln` and `np.log1p`; `piq` models the float
constant `math.pi`.  The result is the pair (expected log-likelihood,
mixing weights), or `.error ()` for a raised exception.

The `nu=None` and `nu=inf` branches read the identifier `numdim`, which is
bound nowhere in the module, so both raise `NameError` before returning.
In the finite-`nu` branch the digamma correction of `logdet` lacks the
`.sum()` used by `gausswish.loglik`, so `logdet` is a length-`dim` vector
when `eta` is finite and the result exists only when that length
broadcasts against the length-`size` error vector. -/
def gg_loglik (lg ps gl l1p : ℚ → ℚ) (piq : ℚ) (s : GGState) (size : ℕ)
    (obs : ℕ → ℕ → ℚ) (nu : Option XQ) : Except Unit ((ℕ → ℚ) × (ℕ → ℚ)) :=
  let nn := s.dim
  let n : ℚ := nn
  let sqerr : ℕ → ℚ := fun k =>
    (∑ i ∈ Finset.range nn, (obs i k - s.mu i) ^ 2 / s.sigma i) +
      (match s.omega with | .fin w => n / w | .inf => 0)
  let logdetSc : ℚ := (∑ j ∈ Finset.range nn, lg (s.sigma j)) / 2
  match nu with
  | none => .error ()        -- NameError: name 'numdim' is not defined
  | some .inf => .error ()   -- NameError: name 'numdim' is not defined
  | some (.fin v) =>
      match s.eta with
      | .inf =>
          let const : ℚ := gl (v / 2) - gl ((v + n) / 2) + (n / 2) * lg (piq * v) + logdetSc
          .ok (fun k => -const - ((v + n) / 2) * l1p (sqerr k / v),
               fun k => (v + n) / (v + sqerr k))
      | .fin e =>
          let logdetV : ℕ → ℚ := fun i =>
            logdetSc + ((n / 2) * lg (e / 2) - ps ((e - (i : ℚ)) / 2) / 2)
          if nn = 1 ∨ size = 1 ∨ nn = size then
            .ok (fun k =>
                   -(gl (v / 2) - gl ((v + n) / 2) + (n / 2) * lg (piq * v)
                     + logdetV (if nn = 1 then 0 else k))
                   - ((v + n) / 2) * l1p ((if size = 1 then sqerr 0 else sqerr k) / v),
                 fun k => (v + n) / (v + sqerr k))
          else .error ()     -- ValueError: operands could not be broadcast

/-! ## `gausswish` : the full-covariance Gaussian-precision component -/

/-- Parameter record stored by a `gausswish` instance. -/
structure GWState where
  dim : ℕ
  mu : ℕ → ℚ
  omega : XQ
  sigma : ℕ → ℕ → ℚ
  eta : XQ

/-- Sufficient-statistics record produced by `gausswish.stat`. -/
structure GWStat where
  mu : ℕ → ℚ
  omega : ℚ
  sigma : ℕ → ℕ → ℚ
  eta : ℚ

/-- Entry `(i, j)` of a matrix given as a list of rows. -/
def mEntry (m : List (List ℚ)) (i j : ℕ) : ℚ := (m.getD i []).getD j 0

/-- The `gausswish.sigma` setter assertion: shape `(dim, dim)`, finite
entries, `np.allclose(sigma.T, sigma)` (with numpy's default tolerances
`rtol=1e-5`, `atol=1e-8`), and `(linalg.eigvals(sigma) > 0).all()`.  The
eigenvalue computation is modelled by the uninterpreted predicate `eig`. -/
def gw_sigma_ok (eig : List (List ℚ) → Bool) (dim : ℕ) (sigma : List (List ℚ)) : Bool :=
  sigma.length == dim && sigma.all (fun r => r.length == dim)
    && decide (∀ i < dim, ∀ j < dim,
         |mEntry sigma j i - mEntry sigma i j| ≤ 1 / 10 ^ 8 + (1 / 10 ^ 5) * |mEntry sigma i j|)
    && eig sigma

/-- The `gausswish.mu` property setter (same assertion as `gaussgamma.mu`). -/
def gw_set_mu (s : GWState) (mu : List ℚ) : Option GWState :=
  if gg_mu_ok s.dim mu then some { s with mu := fun i => mu.getD i 0 } else none

/-- The `gausswish.omega` property setter. -/
def gw_set_omega (s : GWState) (omega : XQ) : Option GWState :=
  if omega.pos then some { s with omega := omega } else none

/-- The `gausswish.sigma` property setter. -/
def gw_set_sigma (eig : List (List ℚ) → Bool) (s : GWState) (sigma : List (List ℚ)) :
    Option GWState :=
  if gw_sigma_ok eig s.dim sigma then some { s with sigma := fun i j => mEntry sigma i j }
  else none

/-- The `gausswish.eta` property setter
(`assert not isnan(eta) and eta > dim - 1`). -/
def gw_set_eta (s : GWState) (eta : XQ) : Option GWState :=
  if eta.gt ((s.dim : ℚ) - 1) then some { s with eta := eta } else none

/-- `gausswish.__init__`: checks only `dim > 0`; defaults
`mu=0, omega=1, sigma=np.eye(dim), eta=dim`; stores directly on the `param`
container, bypassing the property setters. -/
def gw_init (dim : ℕ) (mu : Option (List ℚ)) (omega : Option XQ)
    (sigma : Option (List (List ℚ))) (eta : Option XQ) : Option GWState :=
  if 0 < dim then
    some { dim := dim
           mu := match mu with
                 | none => fun _ => 0
                 | some v => fun i => v.getD i 0
           omega := omega.getD (.fin 1)
           sigma := match sigma with
                    | none => fun i j => if i = j then 1 else 0
                    | some m => fun i j => mEntry m i j
           eta := eta.getD (.fin dim) }
  else none

/-- `gausswish.rand`, as a function of the primitive draws: `g i` is the
`random.gamma((eta-i)/2)` variate, `zm` the square standard-normal matrix
whose strict lower triangle fills the Bartlett factor, and `z` the
standard-normal vector of the location draw.  `sq` models the scalar
square root and `cholM` models `numpy.linalg.cholesky`. -/
def gw_rand (sq : ℚ → ℚ) (cholM : (ℕ → ℕ → ℚ) → ℕ → ℕ → ℚ) (s : GWState)
    (g : ℕ → ℚ) (zm : ℕ → ℕ → ℚ) (z : ℕ → ℚ) : (ℕ → ℚ) × (ℕ → ℕ → ℚ) :=
  let nn := s.dim
  let disp : ℕ → ℕ → ℚ :=
    match s.eta with
    | .fin e =>
        let fact1 : ℕ → ℕ → ℚ := fun i j =>
          (if i = j then sq (2 * g i) else 0) + (if j < i then zm i j else 0)
        let rhs : ℕ → ℕ → ℚ := fun i j => sq e * cholM s.sigma j i
        let fact2 : ℕ → ℕ → ℚ := fun i j => solveF fact1 (fun r => rhs r j) i
        fun i j => ∑ k ∈ Finset.range nn, fact2 k i * fact2 k j
    | .inf => s.sigma
  let loc : ℕ → ℚ :=
    match s.omega with
    | .fin w => fun i => s.mu i + (∑ k ∈ Finset.range nn, cholM disp i k * z k) / sq w
    | .inf => s.mu
  (loc, disp)

/-- `gausswish.loglik` (see `gg_loglik` for the conventions).  Here the
digamma correction of `logdet` carries the `.sum()`, so `logdet` is always
a scalar and no broadcast failure can occur; the `nu=None`/`nu=inf`
branches still raise `NameError` on the unbound `numdim`. -/
def gw_loglik (lg ps gl l1p : ℚ → ℚ) (piq : ℚ)
    (cholM : (ℕ → ℕ → ℚ) → ℕ → ℕ → ℚ) (s : GWState) (size : ℕ)
    (obs : ℕ → ℕ → ℚ) (nu : Option XQ) : Except Unit ((ℕ → ℚ) × (ℕ → ℚ)) :=
  let nn := s.dim
  let n : ℚ := nn
  let fact := cholM s.sigma
  let sqerr : ℕ → ℚ := fun k =>
    (∑ i ∈ Finset.range nn, (solveF fact (fun r => obs r k - s.mu r) i) ^ 2) +
      (match s.omega with | .fin w => n / w | .inf => 0)
  let logdet : ℚ :=
    (∑ i ∈ Finset.range nn, lg (fact i i)) +
      (match s.eta with
       | .fin e => (n / 2) * lg (e / 2) - (∑ i ∈ Finset.range nn, ps ((e - (i : ℚ)) / 2)) / 2
       | .inf => 0)
  match nu with
  | none => .error ()        -- NameError: name 'numdim' is not defined
  | some .inf => .error ()   -- NameError: name 'numdim' is not defined
  | some (.fin v) =>
      let const : ℚ := gl (v / 2) - gl ((v + n) / 2) + (n / 2) * lg (piq * v) + logdet
      .ok (fun k => -const - ((v + n) / 2) * l1p (sqerr k / v),
           fun k => (v + n) / (v + sqerr k))

/-- `gausswish.update`.  The `Bool` component models the returned value:
`false` for the bare `return` (Python `None`) taken when both `omega` and
`eta` are infinite.  The final `sigma/2 + (sigma/2).T` symmetrization of
the source is applied on every non-degenerate path. -/
def gw_update (s : GWState) (st : GWStat) : GWState × Bool :=
  match s.omega, s.eta with
  | .inf, .inf => (s, false)
  | om, et =>
      let diff : ℕ → ℚ :=
        fun i => if 0 < st.omega then s.mu i - st.mu i / st.omega else s.mu i
      let wmo : ℚ × (ℕ → ℚ) × XQ :=
        match om with
        | .fin w => ((w * st.omega) / (w + st.omega),
                     fun i => (w * s.mu i + st.mu i) / (w + st.omega),
                     .fin (w + st.omega))
        | .inf => (st.omega, s.mu, .inf)
      let se : (ℕ → ℕ → ℚ) × XQ :=
        match et with
        | .fin e => (fun i j => (e * s.sigma i j + st.sigma i j + wmo.1 * (diff i * diff j))
                       / (e + st.eta),
                     .fin (e + st.eta))
        | .inf => (s.sigma, .inf)
      ({ dim := s.dim, mu := wmo.2.1, omega := wmo.2.2
         sigma := fun i j => se.1 i j / 2 + se.1 j i / 2
         eta := se.2 }, true)

/-- `gausswish.stat`: identical four accumulation modes to `gg_stat`, with
outer-product second moments, followed by the reference-mean compensation
`stat.sigma -= stat.omega * np.outer(ref, ref)`. -/
def gw_stat (weighted scaled : Bool) (s : GWState) (ev : List GBatch) : GWStat :=
  let ref := s.mu
  let acc : GWStat :=
    match weighted, scaled with
    | false, false =>
        { mu := fun i => (ev.map (fun b => ∑ k ∈ Finset.range b.size, b.obs i k)).sum
          omega := (ev.map (fun b => (b.size : ℚ))).sum
          sigma := fun i j => (ev.map (fun b =>
            ∑ k ∈ Finset.range b.size, (b.obs i k - ref i) * (b.obs j k - ref j))).sum
          eta := (ev.map (fun b => (b.size : ℚ))).sum }
    | false, true =>
        { mu := fun i => (ev.map (fun b => ∑ k ∈ Finset.range b.size, b.obs i k * b.scale k)).sum
          omega := (ev.map (fun b => ∑ k ∈ Finset.range b.size, b.scale k)).sum
          sigma := fun i j => (ev.map (fun b =>
            ∑ k ∈ Finset.range b.size,
              (b.obs i k - ref i) * (b.scale k * (b.obs j k - ref j)))).sum
          eta := (ev.map (fun b => ∑ k ∈ Finset.range b.size, b.scale k)).sum }
    | true, true =>
        { mu := fun i => (ev.map (fun b =>
            ∑ k ∈ Finset.range b.size, b.obs i k * (b.weight k * b.scale k))).sum
          omega := (ev.map (fun b => ∑ k ∈ Finset.range b.size, b.weight k * b.scale k)).sum
          sigma := fun i j => (ev.map (fun b =>
            ∑ k ∈ Finset.range b.size,
              (b.obs i k - ref i) * ((b.weight k * b.scale k) * (b.obs j k - ref j)))).sum
          eta := (ev.map (fun b => ∑ k ∈ Finset.range b.size, b.scale k)).sum }
    | true, false =>
        { mu := fun i => (ev.map (fun b =>
            ∑ k ∈ Finset.range b.size, b.obs i k * b.weight k)).sum
          omega := (ev.map (fun b => ∑ k ∈ Finset.range b.size, b.weight k)).sum
          sigma := fun i j => (ev.map (fun b =>
            ∑ k ∈ Finset.range b.size,
              (b.obs i k - ref i) * (b.weight k * (b.obs j k - ref j)))).sum
          eta := (ev.map (fun b => (b.size : ℚ))).sum }
  let refAdj : ℕ → ℚ :=
    fun i => if 0 < acc.omega then ref i - acc.mu i / acc.omega else ref i
  { acc with sigma := fun i j => acc.sigma i j - acc.omega * (refAdj i * refAdj j) }

/-- `gausswish.div`, with `lg`/`ps`/`gl` uninterpreted and `cholM`
modelling `numpy.linalg.cholesky`. -/
def gw_div (lg ps gl : ℚ → ℚ) (cholM : (ℕ → ℕ → ℚ) → ℕ → ℕ → ℚ)
    (post prior : GWState) : XQ :=
  let nn := post.dim
  let n : ℚ := nn
  let pf := cholM post.sigma
  let etaPart : ℚ → XQ := fun d1 =>
    match post.eta, prior.eta with
    | .fin e, .fin e2 =>
        let prf := cholM prior.sigma
        let det := ∑ i ∈ Finset.range nn, lg (pf i i)
        let det2 := ∑ i ∈ Finset.range nn, lg (prf i i)
        let aux := (n / 2) * lg (e / 2) - (∑ i ∈ Finset.range nn, ps ((e - (i : ℚ)) / 2)) / 2
        .fin (d1 - (e / 2) * n
          + (e2 / 2) * (∑ i ∈ Finset.range nn, ∑ j ∈ Finset.range nn,
              (solveF pf (fun r => prf r j) i) ^ 2)
          + (e2 - e) * (det + aux) - e2 * det2 + e * det
          + (∑ i ∈ Finset.range nn, gl ((e2 - (i : ℚ)) / 2))
          - (∑ i ∈ Finset.range nn, gl ((e - (i : ℚ)) / 2))
          - n * (e2 / 2) * lg (e2 / 2) + n * (e / 2) * lg (e / 2))
    | .inf, .inf =>
        if ∀ i < nn, ∀ j < nn, post.sigma i j = prior.sigma i j then .fin d1 else .inf
    | _, _ => .inf
  match post.omega, prior.omega with
  | .fin w, .fin w2 =>
      etaPart ((n / 2) * (w2 / w - lg (w2 / w) - 1)
        + (w2 / 2) * (∑ i ∈ Finset.range nn,
            (solveF pf (fun r => post.mu r - prior.mu r) i) ^ 2))
  | .inf, .inf =>
      if ∀ i < nn, post.mu i = prior.mu i then etaPart 0 else .inf
  | _, _ => .inf

/-- The all-zero `dirich` statistics record. -/
def dzero : DirichStat := ⟨fun _ => 0, 0⟩

/-- The all-zero `gaussgamma` statistics record. -/
def ggzero : GGStat := ⟨fun _ => 0, 0, fun _ => 0, 0⟩

/-- The all-zero `gausswish` statistics record. -/
def gwzero : GWStat := ⟨fun _ => 0, 0, fun _ _ => 0, 0⟩

/-- `gaussgamma.update` is a no-op on instance `s` for *every* statistics
record (all stored parameters unchanged). -/
def gg_noop (s : GGState) : Prop :=
  ∀ st : GGStat,
    (gg_update s st).1.omega = s.omega ∧ (gg_update s st).1.eta = s.eta ∧
    (∀ i, (gg_update s st).1.mu i = s.mu i) ∧ (∀ i, (gg_update s st).1.sigma i = s.sigma i)

/-- The Gauss-Gamma instance of the C7 scenario:
`dim=2, mu=[0,0], omega=1, sigma=[1,1], eta=+∞`. -/
def c7state : GGState := ⟨2, fun _ => 0, .fin 1, fun _ => 1, .inf⟩

/-- Sum of a per-observation quantity over an evidence list (the meaning of
the accumulation loops in `stat`). -/
def swSum (ev : List GBatch) (f : GBatch → ℕ → ℚ) : ℚ :=
  (ev.map (fun b => ∑ k ∈ Finset.range b.size, f b k)).sum

/-- The per-observation weight used by the `(weighted, scaled)` mode. -/
def modeW (weighted scaled : Bool) (b : GBatch) (k : ℕ) : ℚ :=
  (if weighted then b.weight k else 1) * (if scaled then b.scale k else 1)

/-- Whether a modelled `loglik` call returned normally. -/
def exOk (r : Except Unit ((ℕ → ℚ) × (ℕ → ℚ))) : Bool :=
  match r with | .ok _ => true | .error _ => false

/-- Entry `k` of the expected log-likelihood vector of a modelled `loglik`
result (`0` for a raised exception). -/
def exVal (r : Except Unit ((ℕ → ℚ) × (ℕ → ℚ))) (k : ℕ) : ℚ :=
  match r with | .ok p => p.1 k | .error _ => 0

/-- Entry `k` of the mixing-weight vector of a modelled `loglik` result. -/
def exMix (r : Except Unit ((ℕ → ℚ) × (ℕ → ℚ))) (k : ℕ) : ℚ :=
  match r with | .ok p => p.2 k | .error _ => 0

/-! ## Lemmas and claim theorems -/

theorem solveF_eq (L : ℕ → ℕ → ℚ) (b : ℕ → ℚ) (i : ℕ) :
    solveF L b i = (b i - ∑ j ∈ Finset.range i, L i j * solveF L b j) / L i i := by
  rw [solveF, Finset.sum_attach (Finset.range i) (fun j => L i j * solveF L b j)]

/-- Forward substitution of a zero right-hand side gives the zero vector
(no triangularity assumptions needed). -/
theorem solveF_zero (L : ℕ → ℕ → ℚ) (b : ℕ → ℚ) (hb : ∀ r, b r = 0) :
    ∀ i, solveF L b i = 0 := by
  intro i
  induction i using Nat.strong_induction_on with
  | _ i ih =>
    rw [solveF_eq, hb]
    have hsum : (∑ j ∈ Finset.range i, L i j * solveF L b j) = 0 := by
      apply Finset.sum_eq_zero
      intro j hj
      rw [ih j (Finset.mem_range.mp hj), mul_zero]
    rw [hsum]
    simp

/-- Solving `L x = (column c of L)` by forward substitution returns the
`c`-th standard basis vector, provided `L` is lower triangular with a
nonzero diagonal.  (Hence `solve(L, L)` is the identity matrix.) -/
theorem solveF_col (L : ℕ → ℕ → ℚ) (hup : ∀ i j, i < j → L i j = 0)
    (hd : ∀ i, L i i ≠ 0) (c : ℕ) :
    ∀ i, solveF L (fun r => L r c) i = if i = c then 1 else 0 := by
  intro i
  induction i using Nat.strong_induction_on with
  | _ i ih =>
    rw [solveF_eq]
    rcases lt_trichotomy i c with hic | hic | hic
    · rw [if_neg (Nat.ne_of_lt hic), hup i c hic]
      have hsum : (∑ j ∈ Finset.range i, L i j * solveF L (fun r => L r c) j) = 0 := by
        apply Finset.sum_eq_zero
        intro j hj
        have hj' := Finset.mem_range.mp hj
        rw [ih j hj', if_neg (Nat.ne_of_lt (hj'.trans hic)), mul_zero]
      rw [hsum]
      simp
    · subst hic
      rw [if_pos rfl]
      have hsum : (∑ j ∈ Finset.range i, L i j * solveF L (fun r => L r i) j) = 0 := by
        apply Finset.sum_eq_zero
        intro j hj
        have hj' := Finset.mem_range.mp hj
        rw [ih j hj', if_neg (Nat.ne_of_lt hj'), mul_zero]
      rw [hsum, sub_zero, div_self (hd i)]
    · rw [if_neg (Nat.ne_of_gt hic)]
      have hsum : (∑ j ∈ Finset.range i, L i j * solveF L (fun r => L r c) j) = L i c := by
        rw [Finset.sum_congr rfl (fun j hj => by rw [ih j (Finset.mem_range.mp hj)])]
        simp only [mul_ite, mul_one, mul_zero]
        rw [Finset.sum_ite_eq' (Finset.range i) c (fun j => L i j)]
        rw [if_pos (Finset.mem_range.mpr hic)]
      rw [hsum]
      simp

/-- C1: for every Gauss-Gamma or Gauss-Wishart instance and observation
batch, `loglik` with `nu=None` and with `nu=+∞` does *not* return the
claimed Gaussian expected log-density: both branches read the identifier
`numdim`, which is not defined anywhere in the module, and therefore raise
`NameError` (modelled by `.error ()`) for every instance and every input. -/
theorem C1_loglik_nameerror (lg ps gl l1p : ℚ → ℚ) (piq : ℚ) (gs : GGState)
    (ws : GWState) (cholM : (ℕ → ℕ → ℚ) → ℕ → ℕ → ℚ) (size : ℕ)
    (obs : ℕ → ℕ → ℚ) :
    gg_loglik lg ps gl l1p piq gs size obs none = .error () ∧
    gg_loglik lg ps gl l1p piq gs size obs (some .inf) = .error () ∧
    gw_loglik lg ps gl l1p piq cholM ws size obs none = .error () ∧
    gw_loglik lg ps gl l1p piq cholM ws size obs (some .inf) = .error () :=
  ⟨rfl, rfl, rfl, rfl⟩

/-- C3: the concrete Dirichlet scenario: `dim=3`, `pi=[1/3,1/3,1/3]`,
`alpha=1`; `stat` over the single responsibility matrix
`[[1,0],[0,1],[0,0]]` gives `stat.pi=[1,1,0]`, `stat.alpha=2`, and
`update` then gives `pi=[4/9,4/9,1/9]` and `alpha=3`. -/
theorem C3_dirich_scenario :
    let s : DirichState := ⟨3, fun _ => 1/3, .fin 1⟩
    let b : DBatch := ⟨2, fun i k =>
      if i = 0 ∧ k = 0 then 1 else if i = 1 ∧ k = 1 then 1 else 0⟩
    let st := dirich_stat 3 [b]
    let s2 := (dirich_update s st).1
    (st.pi 0 = 1 ∧ st.pi 1 = 1 ∧ st.pi 2 = 0) ∧ st.alpha = 2 ∧
    (s2.pi 0 = (1/3 + 1) / 3 ∧ s2.pi 1 = (1/3 + 1) / 3 ∧ s2.pi 2 = (1/3) / 3) ∧
    s2.alpha = .fin 3 := by
  simp only [dirich_stat, dirich_update, List.map_cons, List.map_nil, List.sum_cons,
    List.sum_nil, Finset.sum_range_succ, Finset.sum_range_zero]
  norm_num

/-- C9 counterexample: `update` does *not* return self in the degenerate
branches: `dirich.update` with `alpha=+∞` and `gausswish.update` with both
`omega` and `eta` infinite execute a bare `return`, i.e. return `None`. -/
theorem C9_counterexample :
    (dirich_update ⟨1, fun _ => 1, XQ.inf⟩ dzero).2 = false ∧
    (gw_update ⟨1, fun _ => 0, XQ.inf, fun i j => if i = j then 1 else 0, XQ.inf⟩
      gwzero).2 = false :=
  ⟨rfl, rfl⟩

/-- C9 amended: `gaussgamma.update` returns self on every path, while
`dirich.update` returns self exactly when `alpha` is finite and
`gausswish.update` returns self exactly when not both `omega` and `eta`
are infinite (otherwise each returns `None`); in every case the degenerate
branches leave the parameters untouched. -/
theorem C9_update_return_amended (ds : DirichState) (dst : DirichStat)
    (gs : GGState) (gst : GGStat) (ws : GWState) (wst : GWStat) :
    ((dirich_update ds dst).2 = true ↔ ds.alpha ≠ XQ.inf) ∧
    (gg_update gs gst).2 = true ∧
    ((gw_update ws wst).2 = true ↔ ¬ (ws.omega = XQ.inf ∧ ws.eta = XQ.inf)) := by
  obtain ⟨dd, dp, da⟩ := ds
  obtain ⟨gd, gm, go, gsg, ge⟩ := gs
  obtain ⟨wd, wm, wo, wsg, we⟩ := ws
  refine ⟨?_, ?_, ?_⟩
  · cases da <;> simp [dirich_update]
  · cases go <;> cases ge <;> simp [gg_update]
  · cases wo <;> cases we <;> simp [gw_update]

/-- C2 counterexample: the constructor does *not* validate.
`dirich(3, pi=[5,5,5])` succeeds (only `dim > 0` is asserted; the
parameters are stored directly on the `param` container without going
through the property setters), leaving an instance whose stored `pi` is
`[5,5,5]` — a vector that violates the simplex invariant enforced by the
`pi` setter (`dirich_pi_ok` is false for it). -/
theorem C2_counterexample :
    dirich_init 3 (some [5, 5, 5]) none =
      some ⟨3, fun i => [(5 : ℚ), 5, 5].getD i 0, .fin 1⟩ ∧
    (fun i => [(5 : ℚ), 5, 5].getD i 0) 0 = 5 ∧
    dirich_pi_ok 3 [5, 5, 5] = false := by
  refine ⟨rfl, rfl, ?_⟩
  simp [dirich_pi_ok, spacingOne]
  norm_num

/-- C2 amended: supplying an invalid hyperparameter through a *property
setter* assignment fails the setter's assertion exactly when the stated
invariant is violated; the *constructors*, however, check only `dim > 0`
and store the supplied values directly on the parameter container without
invoking the setters, so a constructor call with an invalid hyperparameter
succeeds and leaves the instance holding it. -/
theorem C2_validation_amended (eig : List (List ℚ) → Bool)
    (ds : DirichState) (pi : List ℚ) (a : XQ)
    (gs : GGState) (mu sig : List ℚ) (x : XQ)
    (ws : GWState) (sm : List (List ℚ))
    (dim : ℕ) (piI muI sigI : List ℚ) (aI oI eI : XQ) (smI : List (List ℚ))
    (hdim : 0 < dim) :
    ((dirich_set_pi ds pi).isSome = dirich_pi_ok ds.dim pi) ∧
    ((dirich_set_alpha ds a).isSome = a.pos) ∧
    ((gg_set_mu gs mu).isSome = gg_mu_ok gs.dim mu) ∧
    ((gg_set_omega gs x).isSome = x.pos) ∧
    ((gg_set_sigma gs sig).isSome = gg_sigma_ok gs.dim sig) ∧
    ((gg_set_eta gs x).isSome = x.pos) ∧
    ((gw_set_mu ws mu).isSome = gg_mu_ok ws.dim mu) ∧
    ((gw_set_omega ws x).isSome = x.pos) ∧
    ((gw_set_sigma eig ws sm).isSome = gw_sigma_ok eig ws.dim sm) ∧
    ((gw_set_eta ws x).isSome = x.gt ((ws.dim : ℚ) - 1)) ∧
    (dirich_init dim (some piI) (some aI) =
       some ⟨dim, fun i => piI.getD i 0, aI⟩) ∧
    (gg_init dim (some muI) (some oI) (some sigI) (some eI) =
       some ⟨dim, fun i => muI.getD i 0, oI, fun i => sigI.getD i 0, eI⟩) ∧
    (gw_init dim (some muI) (some oI) (some smI) (some eI) =
       some ⟨dim, fun i => muI.getD i 0, oI, fun i j => mEntry smI i j, eI⟩) := by
  refine ⟨?_, ?_, ?_, ?_, ?_, ?_, ?_, ?_, ?_, ?_, ?_, ?_, ?_⟩
  · cases h : dirich_pi_ok ds.dim pi <;> simp [dirich_set_pi, h]
  · cases h : a.pos <;> simp [dirich_set_alpha, h]
  · cases h : gg_mu_ok gs.dim mu <;> simp [gg_set_mu, h]
  · cases h : x.pos <;> simp [gg_set_omega, h]
  · cases h : gg_sigma_ok gs.dim sig <;> simp [gg_set_sigma, h]
  · cases h : x.pos <;> simp [gg_set_eta, h]
  · cases h : gg_mu_ok ws.dim mu <;> simp [gw_set_mu, h]
  · cases h : x.pos <;> simp [gw_set_omega, h]
  · cases h : gw_sigma_ok eig ws.dim sm <;> simp [gw_set_sigma, h]
  · cases h : x.gt ((ws.dim : ℚ) - 1) <;> simp [gw_set_eta, h]
  · simp [dirich_init, hdim]
  · simp [gg_init, hdim]
  · simp [gw_init, hdim]

/-- Witness for `C2_validation_amended` at a concrete input: assigning the
non-positive value `-1` to `alpha` through the `dirich.alpha` property
setter fails its assertion. -/
theorem C2_validation_amended_witness :
    (dirich_set_alpha ⟨1, fun _ => 1, XQ.fin 1⟩ (XQ.fin (-1))).isSome
      = XQ.pos (XQ.fin (-1)) :=
  (C2_validation_amended (fun _ => true) ⟨1, fun _ => 1, XQ.fin 1⟩ [] (XQ.fin (-1))
    ⟨1, fun _ => 0, XQ.fin 1, fun _ => 1, XQ.fin 1⟩ [] [] (XQ.fin (-1))
    ⟨1, fun _ => 0, XQ.fin 1, fun _ _ => 1, XQ.fin 1⟩ []
    1 [] [] [] (XQ.fin 1) (XQ.fin 1) (XQ.fin 1) [] (by decide)).2.1

/-- C4: for equal-dimension Dirichlet instances, `div` is `+∞` whenever the
supports (coordinates with `pi > 0`) differ; with both `alpha = +∞` it is
`0` exactly when the `pi` vectors are equal and `+∞` otherwise; and with
exactly one `alpha` finite it is `+∞`. -/
theorem C4_dirich_div_branches (gl ps : ℚ → ℚ) (post prior : DirichState)
    (hdim : prior.dim = post.dim) :
    ((∃ i < post.dim, ((0 < post.pi i) ∧ ¬ (0 < prior.pi i)) ∨
        ((¬ (0 < post.pi i)) ∧ 0 < prior.pi i) ) →
      dirich_div gl ps post prior = .inf) ∧
    (post.alpha = .inf → prior.alpha = .inf →
      dirich_div gl ps post prior =
        (if ∀ i < post.dim, post.pi i = prior.pi i then .fin 0 else .inf)) ∧
    ((post.alpha = .inf ↔ prior.alpha ≠ .inf) →
      dirich_div gl ps post prior = .inf) := by
  obtain ⟨d1, p1, a1⟩ := post
  obtain ⟨d2, p2, a2⟩ := prior
  simp only at hdim ⊢
  refine ⟨?_, ?_, ?_⟩
  · intro hmis
    cases a1 <;> cases a2 <;> simp only [dirich_div]
    · rw [if_pos hmis]
    · have hne : ¬ ∀ i < d1, p1 i = p2 i := by
        rintro hall
        obtain ⟨i, hi, hcase⟩ := hmis
        rw [hall i hi] at hcase
        rcases hcase with ⟨h, h2⟩ | ⟨h, h2⟩
        exacts [h2 h, h h2]
      rw [if_neg hne]
  · rintro rfl rfl
    simp only [dirich_div]
  · intro hx
    cases a1 <;> cases a2 <;> simp only [dirich_div] <;> simp at hx

/-- Witness for `C4_dirich_div_branches`: two concrete `dim=2` instances
with disjoint supports have divergence `+∞`. -/
theorem C4_dirich_div_branches_witness :
    dirich_div (fun _ => 0) (fun _ => 0)
      ⟨2, fun i => if i = 0 then (1 : ℚ) else 0, .fin 1⟩
      ⟨2, fun i => if i = 1 then (1 : ℚ) else 0, .fin 1⟩ = XQ.inf :=
  (C4_dirich_div_branches (fun _ => 0) (fun _ => 0)
    ⟨2, fun i => if i = 0 then (1 : ℚ) else 0, .fin 1⟩
    ⟨2, fun i => if i = 1 then (1 : ℚ) else 0, .fin 1⟩ rfl).1
    ⟨0, by norm_num, Or.inl ⟨by norm_num, by norm_num⟩⟩

/-- C6: folding the all-zero statistics record into a valid instance of any
of the three families leaves every stored parameter unchanged. -/
theorem C6_update_zero_identity (ds : DirichState) (gs : GGState) (ws : GWState)
    (hda : ds.alpha.pos = true)
    (hgo : gs.omega.pos = true) (hge : gs.eta.pos = true)
    (hwo : ws.omega.pos = true) (hwe : ws.eta.pos = true)
    (hsym : ∀ i j, i < ws.dim → j < ws.dim → ws.sigma i j = ws.sigma j i)
    (i ig iw jw : ℕ) (hiw : iw < ws.dim) (hjw : jw < ws.dim) :
    ((dirich_update ds dzero).1.pi i = ds.pi i ∧
     (dirich_update ds dzero).1.alpha = ds.alpha) ∧
    ((gg_update gs ggzero).1.mu ig = gs.mu ig ∧
     (gg_update gs ggzero).1.omega = gs.omega ∧
     (gg_update gs ggzero).1.sigma ig = gs.sigma ig ∧
     (gg_update gs ggzero).1.eta = gs.eta) ∧
    ((gw_update ws gwzero).1.mu iw = ws.mu iw ∧
     (gw_update ws gwzero).1.omega = ws.omega ∧
     (gw_update ws gwzero).1.sigma iw jw = ws.sigma iw jw ∧
     (gw_update ws gwzero).1.eta = ws.eta) := by
  obtain ⟨dd, dp, da⟩ := ds
  obtain ⟨gd, gm, go, gsg, ge⟩ := gs
  obtain ⟨wd, wm, wo, wsg, we⟩ := ws
  simp only at hda hgo hge hwo hwe hsym hiw hjw ⊢
  refine ⟨?_, ?_, ?_⟩
  · cases da with
    | inf => simp [dirich_update]
    | fin a =>
        simp only [XQ.pos, decide_eq_true_eq] at hda
        simp [dirich_update, dzero]
        field_simp
  · cases go with
    | inf =>
        cases ge with
        | inf => simp [gg_update]
        | fin e =>
            simp only [XQ.pos, decide_eq_true_eq] at hge
            simp [gg_update, ggzero]
            field_simp
    | fin w =>
        simp only [XQ.pos, decide_eq_true_eq] at hgo
        cases ge with
        | inf =>
            simp [gg_update, ggzero]
            field_simp
        | fin e =>
            simp only [XQ.pos, decide_eq_true_eq] at hge
            simp [gg_update, ggzero]
            constructor <;> field_simp
  · have hsv := hsym iw jw hiw hjw
    cases wo with
    | inf =>
        cases we with
        | inf => simp [gw_update]
        | fin e =>
            simp only [XQ.pos, decide_eq_true_eq] at hwe
            simp [gw_update, gwzero]
            field_simp
            linarith [hsv]
    | fin w =>
        simp only [XQ.pos, decide_eq_true_eq] at hwo
        cases we with
        | inf =>
            simp [gw_update, gwzero]
            constructor
            · field_simp
            · linarith [hsv]
        | fin e =>
            simp only [XQ.pos, decide_eq_true_eq] at hwe
            simp [gw_update, gwzero]
            constructor
            · field_simp
            · field_simp
              linarith [hsv]

/-- Witness for `C6_update_zero_identity` at concrete `dim=1` instances. -/
theorem C6_update_zero_identity_witness :
    (gg_update ⟨1, fun _ => 0, XQ.fin 1, fun _ => 1, XQ.fin 1⟩ ggzero).1.sigma 0 = 1 :=
  (C6_update_zero_identity ⟨1, fun _ => 1, XQ.fin 1⟩
    ⟨1, fun _ => 0, XQ.fin 1, fun _ => 1, XQ.fin 1⟩
    ⟨1, fun _ => 0, XQ.fin 1, fun _ _ => 1, XQ.fin 1⟩
    (by norm_num [XQ.pos]) (by norm_num [XQ.pos]) (by norm_num [XQ.pos])
    (by norm_num [XQ.pos]) (by norm_num [XQ.pos]) (fun _ _ _ _ => rfl)
    0 0 0 0 Nat.one_pos Nat.one_pos).2.1.2.2.1

/-- C7: on the scenario instance (`omega=1`, `eta=+∞`), `update` with *any*
statistics record (in particular any record with nonzero `stat.sigma`)
leaves `sigma` and `eta` unchanged — the degenerate dispersion branch is
skipped — while still updating `mu` to `(omega*mu+stat.mu)/(omega+stat.omega)`
and `omega` to `omega+stat.omega`; and `update` is a complete no-op (for
every statistics record) exactly when both `omega` and `eta` are infinite. -/
theorem C7_gg_degenerate_eta (st : GGStat) (i : ℕ) (s2 : GGState) :
    ((gg_update c7state st).1.sigma i = 1 ∧
     (gg_update c7state st).1.eta = .inf ∧
     (gg_update c7state st).1.mu i = (1 * (0 : ℚ) + st.mu i) / (1 + st.omega) ∧
     (gg_update c7state st).1.omega = .fin (1 + st.omega)) ∧
    (gg_noop s2 ↔ (s2.omega = XQ.inf ∧ s2.eta = XQ.inf)) := by
  constructor
  · refine ⟨?_, ?_, ?_, ?_⟩ <;> simp [c7state, gg_update]
  · constructor
    · intro hno
      obtain ⟨sd, sm, so, ssg, se⟩ := s2
      cases so with
      | fin w =>
          exfalso
          have h := (hno ⟨fun _ => 0, 1, fun _ => 0, 0⟩).1
          simp [gg_update] at h
      | inf =>
          cases se with
          | fin e =>
              exfalso
              have h := (hno ⟨fun _ => 0, 0, fun _ => 0, 1⟩).2.1
              simp [gg_update] at h
          | inf => exact ⟨rfl, rfl⟩
    · rintro ⟨h1, h2⟩
      intro st'
      obtain ⟨sd, sm, so, ssg, se⟩ := s2
      simp only at h1 h2
      subst h1; subst h2
      simp [gg_update]

/-- `dirich.div` of an instance against an identically-parameterized
instance is exactly `0` (both alpha branches). -/
theorem dirich_div_self (gl ps : ℚ → ℚ) (ds : DirichState) :
    dirich_div gl ps ds ds = .fin 0 := by
  obtain ⟨d, p, a⟩ := ds
  cases a with
  | inf =>
      simp [dirich_div]
  | fin a =>
      simp only [dirich_div]
      have hno : ¬ ∃ i, i < d ∧ ((0 < p i ∧ ¬ (0 < p i)) ∨ ((¬ (0 < p i)) ∧ 0 < p i)) := by
        rintro ⟨i, -, hc⟩
        rcases hc with ⟨h1, h2⟩ | ⟨h1, h2⟩
        exacts [h2 h1, h1 h2]
      rw [if_neg hno]
      have h1 : (∑ i ∈ (Finset.range d).filter (fun i => 0 < p i),
          (gl (a * p i) - gl (a * p i))) = 0 :=
        Finset.sum_eq_zero (fun i _ => sub_self _)
      have h2 : (∑ i ∈ (Finset.range d).filter (fun i => 0 < p i),
          (a * p i - a * p i) * (ps (a * p i) - ps a)) = 0 :=
        Finset.sum_eq_zero (fun i _ => by rw [sub_self, zero_mul])
      rw [h1, h2]
      norm_num

/-- `gaussgamma.div` of an instance against an identically-parameterized
instance is exactly `0`, in all four degeneracy combinations. -/
theorem gg_div_self (lg ps gl : ℚ → ℚ) (hlg1 : lg 1 = 0) (gs : GGState)
    (hgo : gs.omega.pos = true) (hgs : ∀ i, i < gs.dim → 0 < gs.sigma i) :
    gg_div lg ps gl gs gs = .fin 0 := by
  obtain ⟨d, m, om, sg, et⟩ := gs
  simp only at hgo hgs
  have hzero : (∑ i ∈ Finset.range d, (m i - m i) ^ 2 / sg i) = 0 :=
    Finset.sum_eq_zero (fun i _ => by simp)
  have hsg : (∑ i ∈ Finset.range d, sg i / sg i) = (d : ℚ) := by
    rw [Finset.sum_congr rfl
      (fun i hi => div_self (ne_of_gt (hgs i (Finset.mem_range.mp hi))))]
    simp
  cases om with
  | inf =>
      cases et with
      | inf => simp [gg_div]
      | fin e =>
          simp only [gg_div]
          simp only [sub_self, XQ.fin.injEq]
          simp
          rw [hsg]
          ring
  | fin w =>
      simp only [XQ.pos, decide_eq_true_eq] at hgo
      have hw : w ≠ 0 := ne_of_gt hgo
      cases et with
      | inf =>
          simp only [gg_div]
          simp [hlg1, hw]
      | fin e =>
          simp only [gg_div]
          simp only [XQ.fin.injEq]
          rw [div_self hw, hlg1, hzero, hsg]
          ring

/-- `gausswish.div` of an instance against an identically-parameterized
instance is exactly `0`, provided the Cholesky factor of `sigma` is lower
triangular with nonzero diagonal (true of any Cholesky factorization of a
symmetric positive-definite matrix). -/
theorem gw_div_self (lg ps gl : ℚ → ℚ) (hlg1 : lg 1 = 0)
    (cholM : (ℕ → ℕ → ℚ) → ℕ → ℕ → ℚ) (ws : GWState)
    (hwo : ws.omega.pos = true)
    (hlow : ∀ i j, i < j → cholM ws.sigma i j = 0)
    (hdg : ∀ i, cholM ws.sigma i i ≠ 0) :
    gw_div lg ps gl cholM ws ws = .fin 0 := by
  obtain ⟨d, m, om, sg, et⟩ := ws
  simp only at hwo hlow hdg
  have hz : ∀ i, solveF (cholM sg) (fun r => m r - m r) i = 0 :=
    solveF_zero _ _ (fun r => sub_self _)
  have hzsum : (∑ i ∈ Finset.range d,
      (solveF (cholM sg) (fun r => m r - m r) i) ^ 2) = 0 :=
    Finset.sum_eq_zero (fun i _ => by rw [hz i]; ring)
  have hid : (∑ i ∈ Finset.range d, ∑ j ∈ Finset.range d,
      (solveF (cholM sg) (fun r => cholM sg r j) i) ^ 2) = (d : ℚ) := by
    have hcol := solveF_col (cholM sg) hlow hdg
    calc (∑ i ∈ Finset.range d, ∑ j ∈ Finset.range d,
        (solveF (cholM sg) (fun r => cholM sg r j) i) ^ 2)
        = ∑ i ∈ Finset.range d, ∑ j ∈ Finset.range d,
            (if i = j then (1 : ℚ) else 0) := by
          refine Finset.sum_congr rfl (fun i _ => Finset.sum_congr rfl (fun j _ => ?_))
          rw [hcol j i]
          by_cases h : i = j <;> simp [h]
      _ = ∑ i ∈ Finset.range d, (if i ∈ Finset.range d then (1 : ℚ) else 0) := by
          refine Finset.sum_congr rfl (fun i _ => ?_)
          exact Finset.sum_ite_eq (Finset.range d) i (fun _ => (1 : ℚ))
      _ = (d : ℚ) := by
          rw [Finset.sum_congr rfl (fun i hi => if_pos hi)]
          simp
  cases om with
  | inf =>
      cases et with
      | inf => simp [gw_div]
      | fin e =>
          simp only [gw_div]
          simp
          rw [hid]
          ring
  | fin w =>
      simp only [XQ.pos, decide_eq_true_eq] at hwo
      have hw : w ≠ 0 := ne_of_gt hwo
      cases et with
      | inf =>
          have h0 : (∑ x ∈ Finset.range d,
              solveF (cholM sg) (fun _ => (0 : ℚ)) x ^ 2) = 0 :=
            Finset.sum_eq_zero (fun i _ => by
              rw [solveF_zero (cholM sg) (fun _ => (0 : ℚ)) (fun _ => rfl) i]; ring)
          simp only [gw_div]
          simp [hlg1, hw, h0]
      | fin e =>
          simp only [gw_div]
          simp only [XQ.fin.injEq]
          rw [div_self hw, hlg1, hzsum, hid]
          ring

/-- C5: for valid parameter sets of all three families, `div` of an
instance against an identically-parameterized instance (in particular
against itself, or a posterior against an identical prior) is exactly `0`.
The analytic facts needed are `log 1 = 0` and that `linalg.cholesky`
returns a lower-triangular factor with nonzero diagonal. -/
theorem C5_div_self_zero (lg ps gl : ℚ → ℚ) (hlg1 : lg 1 = 0)
    (cholM : (ℕ → ℕ → ℚ) → ℕ → ℕ → ℚ)
    (ds : DirichState) (gs : GGState) (ws : GWState)
    (hgo : gs.omega.pos = true) (hgs : ∀ i, i < gs.dim → 0 < gs.sigma i)
    (hwo : ws.omega.pos = true)
    (hlow : ∀ i j, i < j → cholM ws.sigma i j = 0)
    (hdg : ∀ i, cholM ws.sigma i i ≠ 0) :
    dirich_div gl ps ds ds = .fin 0 ∧
    gg_div lg ps gl gs gs = .fin 0 ∧
    gw_div lg ps gl cholM ws ws = .fin 0 :=
  ⟨dirich_div_self gl ps ds, gg_div_self lg ps gl hlg1 gs hgo hgs,
   gw_div_self lg ps gl hlg1 cholM ws hwo hlow hdg⟩

/-- Witness for `C5_div_self_zero`: a concrete Gauss-Wishart `dim=1`
posterior/prior pair with identical parameters has divergence `0`. -/
theorem C5_div_self_zero_witness :
    gw_div (fun _ => 0) (fun _ => 0) (fun _ => 0)
      (fun _ i j => if i = j then 1 else 0)
      ⟨1, fun _ => 0, XQ.fin 1, fun _ _ => 1, XQ.fin 1⟩
      ⟨1, fun _ => 0, XQ.fin 1, fun _ _ => 1, XQ.fin 1⟩ = XQ.fin 0 :=
  (C5_div_self_zero (fun _ => 0) (fun _ => 0) (fun _ => 0) rfl
    (fun _ i j => if i = j then 1 else 0)
    ⟨1, fun _ => 1, XQ.fin 1⟩
    ⟨1, fun _ => 0, XQ.fin 1, fun _ => 1, XQ.fin 1⟩
    ⟨1, fun _ => 0, XQ.fin 1, fun _ _ => 1, XQ.fin 1⟩
    (by norm_num [XQ.pos]) (fun i _ => one_pos)
    (by norm_num [XQ.pos])
    (fun i j hij => by simp [Nat.ne_of_lt hij])
    (fun i => by simp)).2.2

theorem swSum_nil (f : GBatch → ℕ → ℚ) : swSum [] f = 0 := rfl

theorem swSum_cons (b : GBatch) (t : List GBatch) (f : GBatch → ℕ → ℚ) :
    swSum (b :: t) f = (∑ k ∈ Finset.range b.size, f b k) + swSum t f := by
  simp [swSum]

theorem swSum_congr (ev : List GBatch) (f g : GBatch → ℕ → ℚ)
    (h : ∀ b k, f b k = g b k) : swSum ev f = swSum ev g := by
  have hfg : f = g := funext (fun b => funext (fun k => h b k))
  rw [hfg]

/-- `stat.omega += size` accumulates the same total as summing the
constant weight `1` over the batch. -/
theorem swSum_size (ev : List GBatch) :
    (ev.map (fun b => (b.size : ℚ))).sum = swSum ev (fun _ _ => 1) := by
  unfold swSum
  have h : (fun b : GBatch => (b.size : ℚ))
      = fun b : GBatch => ∑ _k ∈ Finset.range b.size, (1 : ℚ) :=
    funext (fun b => by simp)
  rw [h]

/-- Expansion of a weighted sum of products of shifted observations. -/
theorem swSum_expand (ev : List GBatch) (w X Y : GBatch → ℕ → ℚ) (r s : ℚ) :
    swSum ev (fun b k => w b k * ((X b k - r) * (Y b k - s)))
      = swSum ev (fun b k => w b k * (X b k * Y b k))
        - s * swSum ev (fun b k => w b k * X b k)
        - r * swSum ev (fun b k => w b k * Y b k)
        + r * s * swSum ev w := by
  induction ev with
  | nil => simp [swSum]
  | cons b t ih =>
      rw [swSum_cons, swSum_cons, swSum_cons, swSum_cons, swSum_cons, ih]
      have hb : (∑ k ∈ Finset.range b.size, w b k * ((X b k - r) * (Y b k - s)))
          = (∑ k ∈ Finset.range b.size, w b k * (X b k * Y b k))
            - s * (∑ k ∈ Finset.range b.size, w b k * X b k)
            - r * (∑ k ∈ Finset.range b.size, w b k * Y b k)
            + r * s * (∑ k ∈ Finset.range b.size, w b k) := by
        rw [Finset.mul_sum, Finset.mul_sum, Finset.mul_sum, ← Finset.sum_sub_distrib,
          ← Finset.sum_sub_distrib, ← Finset.sum_add_distrib]
        exact Finset.sum_congr rfl (fun k _ => by ring)
      rw [hb]
      ring

/-- The parallel-axis cancellation: subtracting the reference-mean
correction from the sum of squared/crossed deviations about an arbitrary
reference point `(r, s)` yields the deviations about the weighted mean,
independently of the reference point. -/
theorem stat_sigma_closed (ev : List GBatch) (w X Y : GBatch → ℕ → ℚ) (r s : ℚ)
    (hpos : 0 < swSum ev w) :
    swSum ev (fun b k => w b k * ((X b k - r) * (Y b k - s)))
      - swSum ev w * ((r - swSum ev (fun b k => w b k * X b k) / swSum ev w)
          * (s - swSum ev (fun b k => w b k * Y b k) / swSum ev w))
      = swSum ev (fun b k => w b k *
          ((X b k - swSum ev (fun b2 k2 => w b2 k2 * X b2 k2) / swSum ev w)
            * (Y b k - swSum ev (fun b2 k2 => w b2 k2 * Y b2 k2) / swSum ev w))) := by
  have hW : swSum ev w ≠ 0 := ne_of_gt hpos
  rw [swSum_expand ev w X Y r s,
      swSum_expand ev w X Y (swSum ev (fun b2 k2 => w b2 k2 * X b2 k2) / swSum ev w)
        (swSum ev (fun b2 k2 => w b2 k2 * Y b2 k2) / swSum ev w)]
  field_simp
  ring

theorem gg_stat_mu_eq (weighted scaled : Bool) (gs : GGState) (ev : List GBatch) (r : ℕ) :
    (gg_stat weighted scaled gs ev).mu r
      = swSum ev (fun b k => modeW weighted scaled b k * b.obs r k) := by
  cases weighted <;> cases scaled <;> simp only [gg_stat] <;>
    refine swSum_congr ev _ _ (fun b k => ?_) <;> simp [modeW] <;> ring

theorem gg_stat_omega_eq (weighted scaled : Bool) (gs : GGState) (ev : List GBatch) :
    (gg_stat weighted scaled gs ev).omega
      = swSum ev (fun b k => modeW weighted scaled b k) := by
  cases weighted <;> cases scaled <;> simp only [gg_stat] <;>
    first
      | (rw [swSum_size]
         exact swSum_congr ev _ _ (fun b k => by simp [modeW]))
      | (refine swSum_congr ev _ _ (fun b k => ?_) <;> simp [modeW])

theorem gg_stat_sigma_raw (weighted scaled : Bool) (gs : GGState) (ev : List GBatch) (i : ℕ) :
    (gg_stat weighted scaled gs ev).sigma i
      = swSum ev (fun b k => modeW weighted scaled b k *
          ((b.obs i k - gs.mu i) * (b.obs i k - gs.mu i)))
        - (gg_stat weighted scaled gs ev).omega *
          ((if 0 < (gg_stat weighted scaled gs ev).omega then
              gs.mu i - (gg_stat weighted scaled gs ev).mu i
                / (gg_stat weighted scaled gs ev).omega
            else gs.mu i)) ^ 2 := by
  cases weighted <;> cases scaled <;> simp only [gg_stat] <;>
    (congr 1
     refine swSum_congr ev _ _ (fun b k => ?_) <;> simp [modeW] <;> ring)

theorem gw_stat_mu_eq (weighted scaled : Bool) (ws : GWState) (ev : List GBatch) (r : ℕ) :
    (gw_stat weighted scaled ws ev).mu r
      = swSum ev (fun b k => modeW weighted scaled b k * b.obs r k) := by
  cases weighted <;> cases scaled <;> simp only [gw_stat] <;>
    refine swSum_congr ev _ _ (fun b k => ?_) <;> simp [modeW] <;> ring

theorem gw_stat_omega_eq (weighted scaled : Bool) (ws : GWState) (ev : List GBatch) :
    (gw_stat weighted scaled ws ev).omega
      = swSum ev (fun b k => modeW weighted scaled b k) := by
  cases weighted <;> cases scaled <;> simp only [gw_stat] <;>
    first
      | (rw [swSum_size]
         exact swSum_congr ev _ _ (fun b k => by simp [modeW]))
      | (refine swSum_congr ev _ _ (fun b k => ?_) <;> simp [modeW])

theorem gw_stat_sigma_raw (weighted scaled : Bool) (ws : GWState) (ev : List GBatch) (i j : ℕ) :
    (gw_stat weighted scaled ws ev).sigma i j
      = swSum ev (fun b k => modeW weighted scaled b k *
          ((b.obs i k - ws.mu i) * (b.obs j k - ws.mu j)))
        - (gw_stat weighted scaled ws ev).omega *
          ((if 0 < (gw_stat weighted scaled ws ev).omega then
              ws.mu i - (gw_stat weighted scaled ws ev).mu i
                / (gw_stat weighted scaled ws ev).omega
            else ws.mu i)
          * (if 0 < (gw_stat weighted scaled ws ev).omega then
              ws.mu j - (gw_stat weighted scaled ws ev).mu j
                / (gw_stat weighted scaled ws ev).omega
            else ws.mu j)) := by
  cases weighted <;> cases scaled <;> simp only [gw_stat] <;>
    (congr 1
     refine swSum_congr ev _ _ (fun b k => ?_) <;> simp [modeW] <;> ring)

/-- C10: in all four accumulation modes of both Gaussian families, the
`stat.sigma` accumulator returned by `stat` equals the weighted sum of
squared deviations (elementwise squares for the diagonal family, outer
products for the full-covariance family) of the observations from the
batch's weighted mean `stat.mu/stat.omega` — an expression in which the
instance's current `mu` (the reference point used during accumulation)
does not occur: the reference-mean correction cancels it exactly. -/
theorem C10_stat_sigma_mu_independent (weighted scaled : Bool)
    (gs : GGState) (ws : GWState) (ev : List GBatch) (i j : ℕ)
    (hpos : 0 < swSum ev (fun b k => modeW weighted scaled b k)) :
    (gg_stat weighted scaled gs ev).sigma i
      = swSum ev (fun b k => modeW weighted scaled b k *
          ((b.obs i k
              - swSum ev (fun b2 k2 => modeW weighted scaled b2 k2 * b2.obs i k2)
                / swSum ev (fun b2 k2 => modeW weighted scaled b2 k2))
            * (b.obs i k
              - swSum ev (fun b2 k2 => modeW weighted scaled b2 k2 * b2.obs i k2)
                / swSum ev (fun b2 k2 => modeW weighted scaled b2 k2)))) ∧
    (gw_stat weighted scaled ws ev).sigma i j
      = swSum ev (fun b k => modeW weighted scaled b k *
          ((b.obs i k
              - swSum ev (fun b2 k2 => modeW weighted scaled b2 k2 * b2.obs i k2)
                / swSum ev (fun b2 k2 => modeW weighted scaled b2 k2))
            * (b.obs j k
              - swSum ev (fun b2 k2 => modeW weighted scaled b2 k2 * b2.obs j k2)
                / swSum ev (fun b2 k2 => modeW weighted scaled b2 k2)))) := by
  constructor
  · rw [gg_stat_sigma_raw, gg_stat_omega_eq, gg_stat_mu_eq, if_pos hpos, pow_two]
    exact stat_sigma_closed ev (fun b k => modeW weighted scaled b k)
      (fun b k => b.obs i k) (fun b k => b.obs i k) (gs.mu i) (gs.mu i) hpos
  · rw [gw_stat_sigma_raw, gw_stat_omega_eq, gw_stat_mu_eq, gw_stat_mu_eq, if_pos hpos, if_pos hpos]
    exact stat_sigma_closed ev (fun b k => modeW weighted scaled b k)
      (fun b k => b.obs i k) (fun b k => b.obs j k) (ws.mu i) (ws.mu j) hpos

/-- Witness for `C10_stat_sigma_mu_independent` on a one-batch,
one-observation evidence list with unit weights. -/
theorem C10_stat_sigma_mu_independent_witness :
    (gg_stat false false ⟨1, fun _ => 0, XQ.fin 1, fun _ => 1, XQ.fin 1⟩
        [⟨1, fun _ _ => 0, fun _ => 1, fun _ => 1⟩]).sigma 0
      = swSum [⟨1, fun _ _ => 0, fun _ => 1, fun _ => 1⟩] (fun b k => modeW false false b k *
          ((b.obs 0 k
              - swSum [⟨1, fun _ _ => 0, fun _ => 1, fun _ => 1⟩]
                  (fun b2 k2 => modeW false false b2 k2 * b2.obs 0 k2)
                / swSum [⟨1, fun _ _ => 0, fun _ => 1, fun _ => 1⟩]
                  (fun b2 k2 => modeW false false b2 k2))
            * (b.obs 0 k
              - swSum [⟨1, fun _ _ => 0, fun _ => 1, fun _ => 1⟩]
                  (fun b2 k2 => modeW false false b2 k2 * b2.obs 0 k2)
                / swSum [⟨1, fun _ _ => 0, fun _ => 1, fun _ => 1⟩]
                  (fun b2 k2 => modeW false false b2 k2)))) :=
  (C10_stat_sigma_mu_independent false false
    ⟨1, fun _ => 0, XQ.fin 1, fun _ => 1, XQ.fin 1⟩
    ⟨1, fun _ => 0, XQ.fin 1, fun _ _ => 1, XQ.fin 1⟩
    [⟨1, fun _ _ => 0, fun _ => 1, fun _ => 1⟩] 0 0
    (by norm_num [swSum, modeW])).1

/-- Forward substitution at index `0` is a scalar division (the whole
content of a triangular solve in dimension 1). -/
theorem solveF_zeroth (L : ℕ → ℕ → ℚ) (b : ℕ → ℚ) : solveF L b 0 = b 0 / L 0 0 := by
  rw [solveF_eq]
  simp

/-- At `dim = 1`, `gausswish.div` agrees exactly with `gaussgamma.div`
when the `1×1` covariance matrices hold the diagonal family's scalars.
`sq` models the scalar square root; a `1×1` Cholesky factor is the square
root of the single entry (`hch`), whose square returns the entry (`hsq*`),
and the half-log-determinant relation is `log σ = 2 log √σ` (`hlg*`). -/
theorem gw1_div_agrees (lg ps gl : ℚ → ℚ) (cholM : (ℕ → ℕ → ℚ) → ℕ → ℕ → ℚ)
    (sq : ℚ → ℚ) (mu mu2 : ℕ → ℚ) (om om2 et et2 : XQ)
    (sig sig2 : ℕ → ℚ) (sm sm2 : ℕ → ℕ → ℚ)
    (hs : sm 0 0 = sig 0) (hs2 : sm2 0 0 = sig2 0)
    (hch : ∀ M : ℕ → ℕ → ℚ, cholM M 0 0 = sq (M 0 0))
    (hsq : sq (sig 0) * sq (sig 0) = sig 0)
    (hsq2 : sq (sig2 0) * sq (sig2 0) = sig2 0)
    (hlg : lg (sig 0) = 2 * lg (sq (sig 0)))
    (hlg2 : lg (sig2 0) = 2 * lg (sq (sig2 0))) :
    gg_div lg ps gl ⟨1, mu, om, sig, et⟩ ⟨1, mu2, om2, sig2, et2⟩
      = gw_div lg ps gl cholM ⟨1, mu, om, sm, et⟩ ⟨1, mu2, om2, sm2, et2⟩ := by
  have hpf : cholM sm 0 0 = sq (sig 0) := by rw [hch, hs]
  have hprf : cholM sm2 0 0 = sq (sig2 0) := by rw [hch, hs2]
  have hd2 : (sq (sig 0)) ^ 2 = sig 0 := by rw [pow_two, hsq]
  have hd2b : (sq (sig2 0)) ^ 2 = sig2 0 := by rw [pow_two, hsq2]
  have hsigiff : (∀ i < 1, sig i = sig2 i) ↔ (∀ i < 1, ∀ j < 1, sm i j = sm2 i j) := by
    constructor
    · intro h i hi j hj
      rw [Nat.lt_one_iff] at hi hj
      subst hi; subst hj
      rw [hs, hs2]
      exact h 0 Nat.one_pos
    · intro h i hi
      rw [Nat.lt_one_iff] at hi
      subst hi
      rw [← hs, ← hs2]
      exact h 0 Nat.one_pos 0 Nat.one_pos
  cases om with
  | fin w =>
    cases om2 with
    | fin w2 =>
        cases et with
        | fin e =>
          cases et2 with
          | fin e2 =>
              simp only [gg_div, gw_div, Finset.sum_range_one, solveF_zeroth,
                Nat.cast_one, Nat.cast_zero, sub_zero, XQ.fin.injEq]
              rw [hpf, hprf, hlg, hlg2, div_pow, div_pow, hd2, hd2b]
              ring
          | inf => rfl
        | inf =>
          cases et2 with
          | fin e2 => rfl
          | inf =>
              by_cases hc : ∀ i < 1, sig i = sig2 i
              · simp only [gg_div, gw_div, Finset.sum_range_one, solveF_zeroth,
                  Nat.cast_one]
                rw [if_pos hc, if_pos (hsigiff.mp hc)]
                simp only [XQ.fin.injEq]
                rw [hpf, div_pow, hd2]
              · simp only [gg_div, gw_div]
                rw [if_neg hc, if_neg (fun h => hc (hsigiff.mpr h))]
    | inf => rfl
  | inf =>
    cases om2 with
    | fin w2 => rfl
    | inf =>
        by_cases hm : ∀ i < 1, mu i = mu2 i
        · cases et with
          | fin e =>
            cases et2 with
            | fin e2 =>
                simp only [gg_div, gw_div, Finset.sum_range_one, solveF_zeroth,
                  Nat.cast_one, Nat.cast_zero, sub_zero]
                rw [if_pos hm, if_pos hm]
                simp only [XQ.fin.injEq]
                rw [hpf, hprf, hlg, hlg2, div_pow, hd2, hd2b]
                ring
            | inf => simp only [gg_div, gw_div]
          | inf =>
            cases et2 with
            | fin e2 => simp only [gg_div, gw_div]
            | inf =>
                by_cases hc : ∀ i < 1, sig i = sig2 i
                · simp only [gg_div, gw_div]
                  rw [if_pos hm, if_pos hm, if_pos hc, if_pos (hsigiff.mp hc)]
                · simp only [gg_div, gw_div]
                  rw [if_pos hm, if_pos hm, if_neg hc,
                    if_neg (fun h => hc (hsigiff.mpr h))]
        · simp only [gg_div, gw_div]
          rw [if_neg hm, if_neg hm]

/-- At `dim = 1` and finite `nu`, `gausswish.loglik` agrees entrywise with
`gaussgamma.loglik` (values and mixing weights), under the same `1×1`
Cholesky/square-root correspondences as `gw1_div_agrees`. -/
theorem gw1_loglik_agrees (lg ps gl l1p : ℚ → ℚ) (piq : ℚ)
    (cholM : (ℕ → ℕ → ℚ) → ℕ → ℕ → ℚ) (sq : ℚ → ℚ)
    (mu : ℕ → ℚ) (om et : XQ) (sig : ℕ → ℚ) (sm : ℕ → ℕ → ℚ)
    (hs : sm 0 0 = sig 0)
    (hch : ∀ M : ℕ → ℕ → ℚ, cholM M 0 0 = sq (M 0 0))
    (hsq : sq (sig 0) * sq (sig 0) = sig 0)
    (hlg : lg (sig 0) = 2 * lg (sq (sig 0)))
    (size : ℕ) (obs : ℕ → ℕ → ℚ) (v : ℚ) (k : ℕ) (hk : k < size) :
    exOk (gg_loglik lg ps gl l1p piq ⟨1, mu, om, sig, et⟩ size obs (some (.fin v))) = true ∧
    exOk (gw_loglik lg ps gl l1p piq cholM ⟨1, mu, om, sm, et⟩ size obs (some (.fin v))) = true ∧
    exVal (gg_loglik lg ps gl l1p piq ⟨1, mu, om, sig, et⟩ size obs (some (.fin v))) k
      = exVal (gw_loglik lg ps gl l1p piq cholM ⟨1, mu, om, sm, et⟩ size obs (some (.fin v))) k ∧
    exMix (gg_loglik lg ps gl l1p piq ⟨1, mu, om, sig, et⟩ size obs (some (.fin v))) k
      = exMix (gw_loglik lg ps gl l1p piq cholM ⟨1, mu, om, sm, et⟩ size obs (some (.fin v))) k := by
  have hpf : cholM sm 0 0 = sq (sig 0) := by rw [hch, hs]
  have hd2 : (sq (sig 0)) ^ 2 = sig 0 := by rw [pow_two, hsq]
  cases et with
  | inf =>
      refine ⟨rfl, rfl, ?_, ?_⟩
      · simp only [gg_loglik, gw_loglik, exVal, Finset.sum_range_one,
          solveF_zeroth, Nat.cast_one, Nat.cast_zero, sub_zero]
        rw [hpf, div_pow, hd2, hlg]
        ring
      · simp only [gg_loglik, gw_loglik, exMix, Finset.sum_range_one,
          solveF_zeroth, Nat.cast_one, Nat.cast_zero, sub_zero]
        rw [hpf, div_pow, hd2]
  | fin e =>
      have hguard : (1 = 1 ∨ size = 1 ∨ 1 = size) := Or.inl rfl
      refine ⟨?_, rfl, ?_, ?_⟩
      · simp [gg_loglik, exOk]
      · by_cases hsz : size = 1
        · subst hsz
          rw [Nat.lt_one_iff] at hk
          subst hk
          simp only [gg_loglik, gw_loglik, exVal, Finset.sum_range_one,
            solveF_zeroth, Nat.cast_one, Nat.cast_zero, sub_zero, if_pos rfl,
            or_true, true_or, if_true]
          rw [hpf, div_pow, hd2, hlg]
          ring
        · simp only [gg_loglik, gw_loglik, exVal, Finset.sum_range_one,
            solveF_zeroth, Nat.cast_one, Nat.cast_zero, sub_zero, if_pos rfl,
            or_true, true_or, if_true, if_neg hsz]
          rw [hpf, div_pow, hd2, hlg]
          ring
      · simp only [gg_loglik, gw_loglik, exMix, Finset.sum_range_one,
          solveF_zeroth, Nat.cast_one, Nat.cast_zero, sub_zero, if_pos rfl,
          or_true, true_or, if_true]
        rw [hpf, div_pow, hd2]

/-- At `dim = 1`, `gausswish.rand` agrees with `gaussgamma.rand` given the
same primitive Gamma/normal draws: the Bartlett-decomposition sample of the
`1×1` Wishart equals the scaled-Gamma sample of the marginal Gamma, and the
location draws coincide. -/
theorem gw1_rand_agrees (sq : ℚ → ℚ) (cholM : (ℕ → ℕ → ℚ) → ℕ → ℕ → ℚ)
    (mu : ℕ → ℚ) (om et : XQ) (sig : ℕ → ℚ) (sm : ℕ → ℕ → ℚ)
    (hs : sm 0 0 = sig 0)
    (hch : ∀ M : ℕ → ℕ → ℚ, cholM M 0 0 = sq (M 0 0))
    (hsq : sq (sig 0) * sq (sig 0) = sig 0)
    (g z : ℕ → ℚ) (zm : ℕ → ℕ → ℚ) (hg : g 0 ≠ 0)
    (hsqe : ∀ e : ℚ, et = XQ.fin e → sq e * sq e = e)
    (hsqg : sq (2 * g 0) * sq (2 * g 0) = 2 * g 0) :
    (gg_rand sq ⟨1, mu, om, sig, et⟩ g z).1 0
      = (gw_rand sq cholM ⟨1, mu, om, sm, et⟩ g zm z).1 0 ∧
    (gg_rand sq ⟨1, mu, om, sig, et⟩ g z).2 0
      = (gw_rand sq cholM ⟨1, mu, om, sm, et⟩ g zm z).2 0 0 := by
  cases et with
  | inf =>
      constructor
      · cases om with
        | inf => rfl
        | fin w =>
            simp only [gg_rand, gw_rand, Finset.sum_range_one]
            rw [hch, hs]
      · simp only [gg_rand, gw_rand]
        rw [hs]
  | fin e =>
      have hL : ((if (0 : ℕ) = 0 then sq (2 * g 0) else 0)
          + (if (0 : ℕ) < 0 then zm 0 0 else 0)) = sq (2 * g 0) := by norm_num
      have hdisp :
          (solveF (fun i2 j2 => (if i2 = j2 then sq (2 * g i2) else 0)
                + (if j2 < i2 then zm i2 j2 else 0))
              (fun r => sq e * cholM sm 0 r) 0)
            * (solveF (fun i2 j2 => (if i2 = j2 then sq (2 * g i2) else 0)
                + (if j2 < i2 then zm i2 j2 else 0))
              (fun r => sq e * cholM sm 0 r) 0)
          = sig 0 / (g 0 / (e / 2)) := by
        rw [solveF_zeroth, hL, hch, hs]
        rw [div_mul_div_comm]
        rw [show sq e * sq (sig 0) * (sq e * sq (sig 0))
            = (sq e * sq e) * (sq (sig 0) * sq (sig 0)) from by ring]
        rw [hsqe e rfl, hsq, hsqg, div_div_eq_mul_div]
        field_simp
        ring
      constructor
      · cases om with
        | inf => rfl
        | fin w =>
            simp only [gg_rand, gw_rand, Finset.sum_range_one]
            rw [hch, ← hdisp]
      · simp only [gg_rand, gw_rand, Finset.sum_range_one]
        exact hdisp.symm

/-- At `dim = 1`, `gausswish.update` produces the same posterior parameters
as `gaussgamma.update` when the statistics records hold matching scalars
(the final symmetrization is the identity on a `1×1` matrix). -/
theorem gw1_update_agrees (mu : ℕ → ℚ) (om et : XQ) (sig : ℕ → ℚ) (sm : ℕ → ℕ → ℚ)
    (hs : sm 0 0 = sig 0) (stg : GGStat) (stw : GWStat)
    (hstm : stw.mu 0 = stg.mu 0) (hsto : stw.omega = stg.omega)
    (hsts : stw.sigma 0 0 = stg.sigma 0) (hste : stw.eta = stg.eta) :
    (gg_update ⟨1, mu, om, sig, et⟩ stg).1.mu 0
      = (gw_update ⟨1, mu, om, sm, et⟩ stw).1.mu 0 ∧
    (gg_update ⟨1, mu, om, sig, et⟩ stg).1.omega
      = (gw_update ⟨1, mu, om, sm, et⟩ stw).1.omega ∧
    (gg_update ⟨1, mu, om, sig, et⟩ stg).1.sigma 0
      = (gw_update ⟨1, mu, om, sm, et⟩ stw).1.sigma 0 0 ∧
    (gg_update ⟨1, mu, om, sig, et⟩ stg).1.eta
      = (gw_update ⟨1, mu, om, sm, et⟩ stw).1.eta := by
  obtain ⟨gm, go, gsg, ge⟩ := stg
  obtain ⟨wm, wo, wsg, we⟩ := stw
  simp only at hstm hsto hsts hste
  subst hsto hste
  cases om with
  | inf =>
      cases et with
      | inf => exact ⟨rfl, rfl, hs.symm, rfl⟩
      | fin e =>
          refine ⟨rfl, rfl, ?_, rfl⟩
          simp only [gg_update, gw_update]
          rw [hstm, hsts, hs]
          ring
  | fin w =>
      cases et with
      | inf =>
          refine ⟨?_, rfl, ?_, rfl⟩
          · simp only [gg_update, gw_update]
            rw [hstm]
          · simp only [gg_update, gw_update]
            rw [hs]
            ring
      | fin e =>
          refine ⟨?_, rfl, ?_, rfl⟩
          · simp only [gg_update, gw_update]
            rw [hstm]
          · simp only [gg_update, gw_update]
            rw [hstm, hsts, hs]
            ring

/-- C8: for `dim = 1` and matching scalar parameters (same `mu`, `omega`,
`eta`, and a `1×1` `sigma` matrix holding the diagonal family's scalar),
the full-covariance family's `loglik`, `div`, `rand` and `update` agree
exactly with the diagonal family's results: both `loglik` degenerate modes
fail identically (`numdim` NameError), the finite-`nu` values and mixing
weights coincide entrywise, `div` returns the same extended value for any
second matching pair, `rand` driven by the same primitive draws returns
the same location and dispersion, and `update` on matching statistics
records yields matching parameters. -/
theorem C8_dim1_agreement
    (lg ps gl l1p sq : ℚ → ℚ) (piq : ℚ)
    (cholM : (ℕ → ℕ → ℚ) → ℕ → ℕ → ℚ)
    (mu mu2 : ℕ → ℚ) (om om2 et et2 : XQ)
    (sig sig2 : ℕ → ℚ) (sm sm2 : ℕ → ℕ → ℚ)
    (size : ℕ) (obs : ℕ → ℕ → ℚ) (v : ℚ) (k : ℕ)
    (g z : ℕ → ℚ) (zm : ℕ → ℕ → ℚ)
    (stg : GGStat) (stw : GWStat)
    (hs : sm 0 0 = sig 0) (hs2 : sm2 0 0 = sig2 0)
    (hch : ∀ M : ℕ → ℕ → ℚ, cholM M 0 0 = sq (M 0 0))
    (hsq : sq (sig 0) * sq (sig 0) = sig 0)
    (hsq2 : sq (sig2 0) * sq (sig2 0) = sig2 0)
    (hlg : lg (sig 0) = 2 * lg (sq (sig 0)))
    (hlg2 : lg (sig2 0) = 2 * lg (sq (sig2 0)))
    (hk : k < size) (hg : g 0 ≠ 0)
    (hsqe : ∀ e : ℚ, et = XQ.fin e → sq e * sq e = e)
    (hsqg : sq (2 * g 0) * sq (2 * g 0) = 2 * g 0)
    (hstm : stw.mu 0 = stg.mu 0) (hsto : stw.omega = stg.omega)
    (hsts : stw.sigma 0 0 = stg.sigma 0) (hste : stw.eta = stg.eta) :
    (gg_loglik lg ps gl l1p piq ⟨1, mu, om, sig, et⟩ size obs none
       = gw_loglik lg ps gl l1p piq cholM ⟨1, mu, om, sm, et⟩ size obs none) ∧
    (gg_loglik lg ps gl l1p piq ⟨1, mu, om, sig, et⟩ size obs (some .inf)
       = gw_loglik lg ps gl l1p piq cholM ⟨1, mu, om, sm, et⟩ size obs (some .inf)) ∧
    (exOk (gg_loglik lg ps gl l1p piq ⟨1, mu, om, sig, et⟩ size obs (some (.fin v))) = true) ∧
    (exOk (gw_loglik lg ps gl l1p piq cholM ⟨1, mu, om, sm, et⟩ size obs (some (.fin v))) = true) ∧
    (exVal (gg_loglik lg ps gl l1p piq ⟨1, mu, om, sig, et⟩ size obs (some (.fin v))) k
       = exVal (gw_loglik lg ps gl l1p piq cholM ⟨1, mu, om, sm, et⟩ size obs (some (.fin v))) k) ∧
    (exMix (gg_loglik lg ps gl l1p piq ⟨1, mu, om, sig, et⟩ size obs (some (.fin v))) k
       = exMix (gw_loglik lg ps gl l1p piq cholM ⟨1, mu, om, sm, et⟩ size obs (some (.fin v))) k) ∧
    (gg_div lg ps gl ⟨1, mu, om, sig, et⟩ ⟨1, mu2, om2, sig2, et2⟩
       = gw_div lg ps gl cholM ⟨1, mu, om, sm, et⟩ ⟨1, mu2, om2, sm2, et2⟩) ∧
    ((gg_rand sq ⟨1, mu, om, sig, et⟩ g z).1 0
       = (gw_rand sq cholM ⟨1, mu, om, sm, et⟩ g zm z).1 0) ∧
    ((gg_rand sq ⟨1, mu, om, sig, et⟩ g z).2 0
       = (gw_rand sq cholM ⟨1, mu, om, sm, et⟩ g zm z).2 0 0) ∧
    ((gg_update ⟨1, mu, om, sig, et⟩ stg).1.mu 0
       = (gw_update ⟨1, mu, om, sm, et⟩ stw).1.mu 0) ∧
    ((gg_update ⟨1, mu, om, sig, et⟩ stg).1.omega
       = (gw_update ⟨1, mu, om, sm, et⟩ stw).1.omega) ∧
    ((gg_update ⟨1, mu, om, sig, et⟩ stg).1.sigma 0
       = (gw_update ⟨1, mu, om, sm, et⟩ stw).1.sigma 0 0) ∧
    ((gg_update ⟨1, mu, om, sig, et⟩ stg).1.eta
       = (gw_update ⟨1, mu, om, sm, et⟩ stw).1.eta) := by
  obtain ⟨hL1, hL2, hL3, hL4⟩ :=
    gw1_loglik_agrees lg ps gl l1p piq cholM sq mu om et sig sm hs hch hsq hlg
      size obs v k hk
  obtain ⟨hR1, hR2⟩ :=
    gw1_rand_agrees sq cholM mu om et sig sm hs hch hsq g z zm hg hsqe hsqg
  obtain ⟨hU1, hU2, hU3, hU4⟩ :=
    gw1_update_agrees mu om et sig sm hs stg stw hstm hsto hsts hste
  exact ⟨rfl, rfl, hL1, hL2, hL3, hL4,
    gw1_div_agrees lg ps gl cholM sq mu mu2 om om2 et et2 sig sig2 sm sm2
      hs hs2 hch hsq hsq2 hlg hlg2,
    hR1, hR2, hU1, hU2, hU3, hU4⟩

/-- Witness for `C8_dim1_agreement` at an all-ones concrete instance
(the `div` component). -/
theorem C8_dim1_agreement_witness :
    gg_div (fun _ => 0) (fun _ => 0) (fun _ => 0)
      ⟨1, fun _ => 0, XQ.fin 1, fun _ => 1, XQ.fin 1⟩
      ⟨1, fun _ => 0, XQ.fin 1, fun _ => 1, XQ.fin 1⟩
      = gw_div (fun _ => 0) (fun _ => 0) (fun _ => 0) (fun _ _ _ => 1)
        ⟨1, fun _ => 0, XQ.fin 1, fun _ _ => 1, XQ.fin 1⟩
        ⟨1, fun _ => 0, XQ.fin 1, fun _ _ => 1, XQ.fin 1⟩ :=
  (C8_dim1_agreement (fun _ => 0) (fun _ => 0) (fun _ => 0) (fun _ => 0)
    (fun _ => 1) 1 (fun _ _ _ => 1)
    (fun _ => 0) (fun _ => 0) (XQ.fin 1) (XQ.fin 1) (XQ.fin 1) (XQ.fin 1)
    (fun _ => 1) (fun _ => 1) (fun _ _ => 1) (fun _ _ => 1)
    1 (fun _ _ => 0) 1 0
    (fun _ => 1/2) (fun _ => 0) (fun _ _ => 0)
    ⟨fun _ => 0, 0, fun _ => 0, 0⟩ ⟨fun _ => 0, 0, fun _ _ => 0, 0⟩
    rfl rfl (fun _ => rfl)
    (by norm_num) (by norm_num) (by norm_num) (by norm_num)
    Nat.one_pos (by norm_num)
    (fun e he => by injection he with h; rw [← h]; norm_num)
    (by norm_num)
    rfl rfl rfl rfl).2.2.2.2.2.2.1
